import Mathlib

/-! Verification of the comparison and diff-report engine of `site-compare`
(`src/main.rs` and `src/report.rs`).

A `Snapshot` (Rust: `BTreeMap<String, String>`) is modelled as an
association list of `(path, content)` pairs; the `BTreeMap` key-uniqueness
invariant becomes the explicit hypothesis `nodupKeys`.  `BTreeSet<String>`
is modelled as `Finset String` (the ordered iteration of a `BTreeSet` is
irrelevant to the properties verified here, which are set-level or
per-entry).  The `BTreeMap<String, Difference>` built by `compare_sites`
is modelled by the list of its entries; no property below depends on the
entry order.
-/

/-- Rust `enum Difference` (main.rs:14-18). -/
inductive Difference where
  | Added : Difference
  | Changed : (before : String) → (after : String) → Difference
  | Removed : Difference
deriving DecidableEq

/-- Rust `struct Comparison` (main.rs:20-23): a `BTreeSet` of identical
paths and a `BTreeMap` from path to `Difference`, the latter modelled by
its entry list. -/
structure Comparison where
  identical : Finset String
  differences : List (String × Difference)
deriving DecidableEq

/-- A snapshot: the `BTreeMap<String, String>` produced by `collect_files`,
modelled as its entry list. -/
def Snapshot := List (String × String)

/-- Rust `BTreeMap::get`: the value of the first entry with the given key. -/
def lookup (m : List (String × String)) (k : String) : Option String :=
  match m with
  | [] => none
  | (a, v) :: rest => if a = k then some v else lookup rest k

/-- The `BTreeMap` key-uniqueness invariant, made explicit. -/
def nodupKeys (m : List (String × String)) : Prop :=
  (m.map Prod.fst).Nodup

instance (m : List (String × String)) : Decidable (nodupKeys m) := by
  unfold nodupKeys; infer_instance

/-- The key set of a snapshot. -/
def snapKeys (m : List (String × String)) : Finset String :=
  (m.map Prod.fst).toFinset

/-- First loop body of `compare_sites` (main.rs:211-230), restricted to the
identical set: a before-entry lands in `identical` exactly when `after`
holds the same content for its path. -/
def identEntry (after : List (String × String)) (pc : String × String) :
    Option String :=
  match lookup after pc.1 with
  | some ac => if ac ≠ pc.2 then none else some pc.1
  | none => none

/-- First loop body of `compare_sites` (main.rs:211-230), restricted to the
differences map: a before-entry yields `Changed` when the after content
differs, `Removed` when the path is absent from `after`. -/
def beforeDiffEntry (after : List (String × String)) (pc : String × String) :
    Option (String × Difference) :=
  match lookup after pc.1 with
  | some ac => if ac ≠ pc.2 then some (pc.1, Difference.Changed pc.2 ac) else none
  | none => some (pc.1, Difference.Removed)

/-- Second loop body of `compare_sites` (main.rs:232-236): an after-entry
whose path `before` does not contain yields `Added`. -/
def addedEntry (before : List (String × String)) (pc : String × String) :
    Option (String × Difference) :=
  if (lookup before pc.1).isSome then none else some (pc.1, Difference.Added)

/-- Rust `compare_sites` (main.rs:204-242).  The Rust function returns
`Result<Comparison>` but has no failing path; it is total here. -/
def compare_sites (before after : List (String × String)) : Comparison :=
  { identical := (before.filterMap (identEntry after)).toFinset
    differences := before.filterMap (beforeDiffEntry after)
      ++ after.filterMap (addedEntry before) }

/-- Paths carrying `Added` in the differences map. -/
def addedPaths (c : Comparison) : Finset String :=
  (c.differences.filterMap (fun e =>
    match e.2 with
    | Difference.Added => some e.1
    | _ => none)).toFinset

/-- Paths carrying `Removed` in the differences map. -/
def removedPaths (c : Comparison) : Finset String :=
  (c.differences.filterMap (fun e =>
    match e.2 with
    | Difference.Removed => some e.1
    | _ => none)).toFinset

/-- Paths carrying `Changed` in the differences map. -/
def changedPaths (c : Comparison) : Finset String :=
  (c.differences.filterMap (fun e =>
    match e.2 with
    | Difference.Changed _ _ => some e.1
    | _ => none)).toFinset

/-- The key set of the differences map. -/
def diffKeys (c : Comparison) : Finset String :=
  (c.differences.map Prod.fst).toFinset

lemma lookup_eq_some_of_mem (m : List (String × String)) (k : String)
    (v : String) (hnd : nodupKeys m) (hm : (k, v) ∈ m) :
    lookup m k = some v := by
  induction m with
  | nil => cases hm
  | cons hd tl ih =>
    obtain ⟨a, b⟩ := hd
    simp only [nodupKeys, List.map_cons, List.nodup_cons] at hnd
    rcases List.mem_cons.mp hm with hm | hm
    · obtain ⟨h1, h2⟩ := Prod.ext_iff.mp hm
      subst h1; subst h2
      simp [lookup]
    · have hak : a ≠ k := by
        intro h
        exact hnd.1 (h ▸ (List.mem_map.mpr ⟨(k, v), hm, rfl⟩))
      simp only [lookup, if_neg hak]
      exact ih hnd.2 hm

lemma mem_of_lookup_eq_some (m : List (String × String)) (k v : String)
    (h : lookup m k = some v) : (k, v) ∈ m := by
  induction m with
  | nil => simp [lookup] at h
  | cons hd tl ih =>
    obtain ⟨a, b⟩ := hd
    by_cases hak : a = k
    · subst hak
      have hl : lookup ((a, b) :: tl) a = some b := by simp [lookup]
      rw [hl] at h
      cases h
      exact List.mem_cons_self _ _
    · simp only [lookup, if_neg hak] at h
      exact List.mem_cons_of_mem _ (ih h)

lemma lookup_isSome_of_mem (m : List (String × String)) (k v : String)
    (hm : (k, v) ∈ m) : (lookup m k).isSome := by
  induction m with
  | nil => cases hm
  | cons hd tl ih =>
    obtain ⟨a, b⟩ := hd
    rcases List.mem_cons.mp hm with hm | hm
    · obtain ⟨h1, h2⟩ := Prod.ext_iff.mp hm
      subst h1; subst h2
      simp [lookup]
    · by_cases hak : a = k
      · simp [lookup, hak]
      · simp only [lookup, if_neg hak]
        exact ih hm

lemma lookup_eq_none_iff (m : List (String × String)) (k : String) :
    lookup m k = none ↔ ∀ v, (k, v) ∉ m := by
  constructor
  · intro h v hv
    have := lookup_isSome_of_mem m k v hv
    rw [h] at this
    cases this
  · intro h
    cases hl : lookup m k with
    | none => rfl
    | some v => exact absurd (mem_of_lookup_eq_some m k v hl) (h v)

lemma content_unique (m : List (String × String)) (k x y : String)
    (hnd : nodupKeys m) (hx : (k, x) ∈ m) (hy : (k, y) ∈ m) : x = y := by
  have h1 := lookup_eq_some_of_mem m k x hnd hx
  have h2 := lookup_eq_some_of_mem m k y hnd hy
  rw [h1] at h2
  exact Option.some.injEq _ _ ▸ h2.symm ▸ rfl

lemma mem_snapKeys (m : List (String × String)) (p : String) :
    p ∈ snapKeys m ↔ ∃ c, (p, c) ∈ m := by
  simp only [snapKeys, List.mem_toFinset, List.mem_map]
  constructor
  · rintro ⟨⟨q, c⟩, hm, rfl⟩; exact ⟨c, hm⟩
  · rintro ⟨c, hm⟩; exact ⟨(p, c), hm, rfl⟩

lemma identEntry_eq_some_iff (after : List (String × String)) (q c p : String) :
    identEntry after (q, c) = some p ↔ q = p ∧ lookup after q = some c := by
  simp only [identEntry]
  cases hl : lookup after q with
  | none => simp
  | some ac =>
    by_cases hac : ac = c
    · subst hac; simp
    · simp [hac]

lemma beforeDiffEntry_eq_some_iff (after : List (String × String))
    (q c : String) (e : String × Difference) :
    beforeDiffEntry after (q, c) = some e ↔
      (lookup after q = none ∧ e = (q, Difference.Removed)) ∨
      (∃ ac, lookup after q = some ac ∧ ac ≠ c ∧
        e = (q, Difference.Changed c ac)) := by
  simp only [beforeDiffEntry]
  cases hl : lookup after q with
  | none => simp [eq_comm]
  | some ac =>
    by_cases hac : ac = c
    · subst hac; simp
    · simp [hac]
      exact eq_comm

lemma addedEntry_eq_some_iff (before : List (String × String))
    (q c : String) (e : String × Difference) :
    addedEntry before (q, c) = some e ↔
      lookup before q = none ∧ e = (q, Difference.Added) := by
  simp only [addedEntry]
  cases hl : lookup before q with
  | none => simp [eq_comm]
  | some v => simp

lemma mem_differences_compare (before after : List (String × String))
    (e : String × Difference) :
    e ∈ (compare_sites before after).differences ↔
      (∃ c, (e.1, c) ∈ before ∧ lookup after e.1 = none ∧
        e.2 = Difference.Removed) ∨
      (∃ c ac, (e.1, c) ∈ before ∧ lookup after e.1 = some ac ∧ ac ≠ c ∧
        e.2 = Difference.Changed c ac) ∨
      (∃ c, (e.1, c) ∈ after ∧ lookup before e.1 = none ∧
        e.2 = Difference.Added) := by
  simp only [compare_sites, List.mem_append, List.mem_filterMap]
  constructor
  · rintro (⟨⟨q, c⟩, hm, he⟩ | ⟨⟨q, c⟩, hm, he⟩)
    · rw [beforeDiffEntry_eq_some_iff] at he
      rcases he with ⟨hl, rfl⟩ | ⟨ac, hl, hac, rfl⟩
      · exact Or.inl ⟨c, hm, hl, rfl⟩
      · exact Or.inr (Or.inl ⟨c, ac, hm, hl, hac, rfl⟩)
    · rw [addedEntry_eq_some_iff] at he
      obtain ⟨hl, rfl⟩ := he
      exact Or.inr (Or.inr ⟨c, hm, hl, rfl⟩)
  · obtain ⟨p, d⟩ := e
    rintro (⟨c, hm, hl, hd⟩ | ⟨c, ac, hm, hl, hac, hd⟩ | ⟨c, hm, hl, hd⟩) <;>
      simp only at hd <;> subst hd
    · exact Or.inl ⟨(p, c), hm, (beforeDiffEntry_eq_some_iff after p c _).mpr
        (Or.inl ⟨hl, rfl⟩)⟩
    · exact Or.inl ⟨(p, c), hm, (beforeDiffEntry_eq_some_iff after p c _).mpr
        (Or.inr ⟨ac, hl, hac, rfl⟩)⟩
    · exact Or.inr ⟨(p, c), hm, (addedEntry_eq_some_iff before p c _).mpr
        ⟨hl, rfl⟩⟩

lemma mem_identical_compare (before after : List (String × String))
    (p : String) :
    p ∈ (compare_sites before after).identical ↔
      ∃ c, (p, c) ∈ before ∧ lookup after p = some c := by
  simp only [compare_sites, List.mem_toFinset, List.mem_filterMap]
  constructor
  · rintro ⟨⟨q, c⟩, hm, he⟩
    rw [identEntry_eq_some_iff] at he
    obtain ⟨rfl, hl⟩ := he
    exact ⟨c, hm, hl⟩
  · rintro ⟨c, hm, hl⟩
    exact ⟨(p, c), hm, (identEntry_eq_some_iff after p c p).mpr ⟨rfl, hl⟩⟩

lemma mem_addedPaths (c : Comparison) (p : String) :
    p ∈ addedPaths c ↔ (p, Difference.Added) ∈ c.differences := by
  simp only [addedPaths, List.mem_toFinset, List.mem_filterMap]
  constructor
  · rintro ⟨⟨q, d⟩, hm, he⟩
    cases d with
    | Added => cases he; exact hm
    | Changed b a => cases he
    | Removed => cases he
  · intro hm
    exact ⟨(p, Difference.Added), hm, rfl⟩

lemma mem_removedPaths (c : Comparison) (p : String) :
    p ∈ removedPaths c ↔ (p, Difference.Removed) ∈ c.differences := by
  simp only [removedPaths, List.mem_toFinset, List.mem_filterMap]
  constructor
  · rintro ⟨⟨q, d⟩, hm, he⟩
    cases d with
    | Added => cases he
    | Changed b a => cases he
    | Removed => cases he; exact hm
  · intro hm
    exact ⟨(p, Difference.Removed), hm, rfl⟩

lemma mem_changedPaths (c : Comparison) (p : String) :
    p ∈ changedPaths c ↔ ∃ b a, (p, Difference.Changed b a) ∈ c.differences := by
  simp only [changedPaths, List.mem_toFinset, List.mem_filterMap]
  constructor
  · rintro ⟨⟨q, d⟩, hm, he⟩
    cases d with
    | Added => cases he
    | Changed b a => cases he; exact ⟨b, a, hm⟩
    | Removed => cases he
  · rintro ⟨b, a, hm⟩
    exact ⟨(p, Difference.Changed b a), hm, rfl⟩

lemma mem_diffKeys (c : Comparison) (p : String) :
    p ∈ diffKeys c ↔ ∃ d, (p, d) ∈ c.differences := by
  simp only [diffKeys, List.mem_toFinset, List.mem_map]
  constructor
  · rintro ⟨⟨q, d⟩, hm, rfl⟩; exact ⟨d, hm⟩
  · rintro ⟨d, hm⟩; exact ⟨(p, d), hm, rfl⟩

lemma diffKeys_eq_union (c : Comparison) :
    diffKeys c = addedPaths c ∪ removedPaths c ∪ changedPaths c := by
  ext p
  simp only [mem_diffKeys, Finset.mem_union, mem_addedPaths, mem_removedPaths,
    mem_changedPaths]
  constructor
  · rintro ⟨d, hd⟩
    cases d with
    | Added => exact Or.inl (Or.inl hd)
    | Changed b a => exact Or.inr ⟨b, a, hd⟩
    | Removed => exact Or.inl (Or.inr hd)
  · rintro ((hd | hd) | ⟨b, a, hd⟩)
    · exact ⟨_, hd⟩
    · exact ⟨_, hd⟩
    · exact ⟨_, hd⟩

lemma mem_removedPaths_compare (before after : List (String × String))
    (p : String) :
    p ∈ removedPaths (compare_sites before after) ↔
      ∃ c, (p, c) ∈ before ∧ lookup after p = none := by
  rw [mem_removedPaths, mem_differences_compare]
  simp

lemma mem_addedPaths_compare (before after : List (String × String))
    (p : String) :
    p ∈ addedPaths (compare_sites before after) ↔
      ∃ c, (p, c) ∈ after ∧ lookup before p = none := by
  rw [mem_addedPaths, mem_differences_compare]
  simp

lemma mem_changedPaths_compare (before after : List (String × String))
    (p : String) :
    p ∈ changedPaths (compare_sites before after) ↔
      ∃ c ac, (p, c) ∈ before ∧ lookup after p = some ac ∧ ac ≠ c := by
  simp only [mem_changedPaths]
  constructor
  · rintro ⟨b, a, hd⟩
    rw [mem_differences_compare] at hd
    rcases hd with ⟨c, hm, hl, hd⟩ | ⟨c, ac, hm, hl, hac, hd⟩ | ⟨c, hm, hl, hd⟩
    · cases hd
    · exact ⟨c, ac, hm, hl, hac⟩
    · cases hd
  · rintro ⟨c, ac, hm, hl, hac⟩
    exact ⟨c, ac, (mem_differences_compare before after _).mpr
      (Or.inr (Or.inl ⟨c, ac, hm, hl, hac, rfl⟩))⟩

lemma covered_of_mem_before (before after : List (String × String))
    (p c : String) (hm : (p, c) ∈ before) :
    p ∈ (compare_sites before after).identical ∨
      p ∈ diffKeys (compare_sites before after) := by
  cases hl : lookup after p with
  | none =>
    exact Or.inr ((mem_diffKeys _ _).mpr ⟨Difference.Removed,
      (mem_differences_compare before after _).mpr (Or.inl ⟨c, hm, hl, rfl⟩)⟩)
  | some ac =>
    by_cases hac : ac = c
    · exact Or.inl ((mem_identical_compare before after p).mpr
        ⟨c, hm, hac ▸ hl⟩)
    · exact Or.inr ((mem_diffKeys _ _).mpr ⟨Difference.Changed c ac,
        (mem_differences_compare before after _).mpr
          (Or.inr (Or.inl ⟨c, ac, hm, hl, hac, rfl⟩))⟩)

/-- C1: `compare_sites` partitions the union of the two snapshots' path
sets.  The identical set and the difference map's key set are disjoint and
together cover `snapKeys before ∪ snapKeys after`; the key set splits into
the `Added`, `Removed` and `Changed` paths, which are pairwise disjoint,
so every path of either snapshot lies in exactly one of the four classes. -/
theorem compare_sites_partitions (before after : List (String × String))
    (hb : nodupKeys before) :
    (compare_sites before after).identical ∪ diffKeys (compare_sites before after)
        = snapKeys before ∪ snapKeys after ∧
    (compare_sites before after).identical ∩ diffKeys (compare_sites before after)
        = ∅ ∧
    diffKeys (compare_sites before after)
        = addedPaths (compare_sites before after)
          ∪ removedPaths (compare_sites before after)
          ∪ changedPaths (compare_sites before after) ∧
    addedPaths (compare_sites before after)
        ∩ removedPaths (compare_sites before after) = ∅ ∧
    addedPaths (compare_sites before after)
        ∩ changedPaths (compare_sites before after) = ∅ ∧
    removedPaths (compare_sites before after)
        ∩ changedPaths (compare_sites before after) = ∅ := by
  refine ⟨?_, ?_, diffKeys_eq_union _, ?_, ?_, ?_⟩
  · ext p
    simp only [Finset.mem_union]
    constructor
    · rintro (hid | hdk)
      · obtain ⟨c, hm, _⟩ := (mem_identical_compare before after p).mp hid
        exact Or.inl ((mem_snapKeys before p).mpr ⟨c, hm⟩)
      · obtain ⟨d, hd⟩ := (mem_diffKeys _ p).mp hdk
        rw [mem_differences_compare] at hd
        rcases hd with ⟨c, hm, _, _⟩ | ⟨c, ac, hm, _, _, _⟩ | ⟨c, hm, _, _⟩
        · exact Or.inl ((mem_snapKeys before p).mpr ⟨c, hm⟩)
        · exact Or.inl ((mem_snapKeys before p).mpr ⟨c, hm⟩)
        · exact Or.inr ((mem_snapKeys after p).mpr ⟨c, hm⟩)
    · rintro (hk | hk)
      · obtain ⟨c, hm⟩ := (mem_snapKeys before p).mp hk
        exact covered_of_mem_before before after p c hm
      · obtain ⟨c, hm⟩ := (mem_snapKeys after p).mp hk
        cases hl : lookup before p with
        | none =>
          exact Or.inr ((mem_diffKeys _ _).mpr ⟨Difference.Added,
            (mem_differences_compare before after _).mpr
              (Or.inr (Or.inr ⟨c, hm, hl, rfl⟩))⟩)
        | some bc =>
          exact covered_of_mem_before before after p bc
            (mem_of_lookup_eq_some before p bc hl)
  · rw [Finset.eq_empty_iff_forall_not_mem]
    intro p hp
    rw [Finset.mem_inter] at hp
    obtain ⟨hid, hdk⟩ := hp
    obtain ⟨c, hm, hl⟩ := (mem_identical_compare before after p).mp hid
    obtain ⟨d, hd⟩ := (mem_diffKeys _ p).mp hdk
    rw [mem_differences_compare] at hd
    rcases hd with ⟨c', hm', hl', _⟩ | ⟨c', ac, hm', hl', hac, _⟩ | ⟨c', hm', hl', _⟩
    · rw [hl] at hl'; cases hl'
    · have hcc : c = c' := content_unique before p c c' hb hm hm'
      rw [hl] at hl'
      cases hl'
      exact hac (hcc ▸ rfl)
    · rw [lookup_eq_none_iff] at hl'
      exact hl' c hm
  · rw [Finset.eq_empty_iff_forall_not_mem]
    intro p hp
    rw [Finset.mem_inter] at hp
    obtain ⟨ha, hr⟩ := hp
    obtain ⟨c, hm, hl⟩ := (mem_addedPaths_compare before after p).mp ha
    obtain ⟨c', hm', _⟩ := (mem_removedPaths_compare before after p).mp hr
    rw [lookup_eq_none_iff] at hl
    exact hl c' hm'
  · rw [Finset.eq_empty_iff_forall_not_mem]
    intro p hp
    rw [Finset.mem_inter] at hp
    obtain ⟨ha, hc⟩ := hp
    obtain ⟨c, hm, hl⟩ := (mem_addedPaths_compare before after p).mp ha
    obtain ⟨c', ac, hm', _, _⟩ := (mem_changedPaths_compare before after p).mp hc
    rw [lookup_eq_none_iff] at hl
    exact hl c' hm'
  · rw [Finset.eq_empty_iff_forall_not_mem]
    intro p hp
    rw [Finset.mem_inter] at hp
    obtain ⟨hr, hc⟩ := hp
    obtain ⟨c, hm, hl⟩ := (mem_removedPaths_compare before after p).mp hr
    obtain ⟨c', ac, hm', hl', _⟩ := (mem_changedPaths_compare before after p).mp hc
    rw [hl] at hl'
    cases hl'

/-- Example snapshots exercising all four path classes. -/
def exBefore : List (String × String) :=
  [("/a.html", "hi"), ("/b.html", "x"), ("/c.html", "y")]

/-- Example after-snapshot paired with `exBefore`. -/
def exAfter : List (String × String) :=
  [("/b.html", "x"), ("/c.html", "z"), ("/d.html", "w")]

/-- Witness for C1 at concrete snapshots. -/
theorem compare_sites_partitions_witness :
    nodupKeys exBefore ∧
    (compare_sites exBefore exAfter).identical
        ∪ diffKeys (compare_sites exBefore exAfter)
      = snapKeys exBefore ∪ snapKeys exAfter :=
  ⟨by decide, (compare_sites_partitions exBefore exAfter (by decide)).1⟩

/-- C7: comparing a snapshot with itself marks every path identical and
produces an empty difference map. -/
theorem compare_sites_self (S : List (String × String)) (h : nodupKeys S) :
    (compare_sites S S).identical = snapKeys S ∧
    (compare_sites S S).differences = [] := by
  constructor
  · ext p
    rw [mem_identical_compare, mem_snapKeys]
    constructor
    · rintro ⟨c, hm, _⟩; exact ⟨c, hm⟩
    · rintro ⟨c, hm⟩
      exact ⟨c, hm, lookup_eq_some_of_mem S p c h hm⟩
  · simp only [compare_sites, List.append_eq_nil]
    constructor
    · rw [List.filterMap_eq_nil_iff]
      rintro ⟨q, c⟩ hm
      have hl := lookup_eq_some_of_mem S q c h hm
      simp [beforeDiffEntry, hl]
    · rw [List.filterMap_eq_nil_iff]
      rintro ⟨q, c⟩ hm
      have hl := lookup_isSome_of_mem S q c hm
      simp [addedEntry, hl]

/-- Example snapshot for the reflexivity witness. -/
def exSnap : List (String × String) := [("/a.html", "hi"), ("/b.html", "yo")]

/-- Witness for C7 at a concrete snapshot. -/
theorem compare_sites_self_witness :
    nodupKeys exSnap ∧
    (compare_sites exSnap exSnap).identical = snapKeys exSnap ∧
    (compare_sites exSnap exSnap).differences = [] :=
  ⟨by decide, (compare_sites_self exSnap (by decide)).1,
    (compare_sites_self exSnap (by decide)).2⟩

/-- Rust `similar::ChangeTag` for a line-oriented diff. -/
inductive ChangeTag where
  | Insert : ChangeTag
  | Delete : ChangeTag
  | Equal : ChangeTag
deriving DecidableEq

/-- One change of `TextDiff::iter_all_changes()`: a tag plus the line text
(`Change::as_str()`), which for a diff built by `TextDiff::from_lines`
keeps its trailing newline (the last line of an input without a trailing
newline keeps none). -/
structure Change where
  tag : ChangeTag
  text : String
deriving DecidableEq

/-- Whether a line already carries its terminating newline. -/
def endsWithNewline (s : String) : Bool :=
  match s.data.getLast? with
  | some ch => ch = '\n'
  | none => false

/-- Rust `similar::Change` and its `Display`: the line value, with a newline appended
when the underlying line does not end in one. -/
def changeDisplay (c : Change) : String :=
  if endsWithNewline c.text then c.text else c.text ++ "\n"

/-- One character of `pulldown_cmark::escape::escape_html`: the four
HTML-special characters are replaced, all others pass through. -/
def escapeCharL (ch : Char) : List Char :=
  if ch = '<' then "&lt;".data
  else if ch = '>' then "&gt;".data
  else if ch = '&' then "&amp;".data
  else if ch = '"' then "&quot;".data
  else [ch]

/-- Rust `escape_html` of report.rs:220-224, via `pulldown_cmark`: escape each
character in turn into the output buffer. -/
def escapeHtml (s : String) : String :=
  String.mk (s.data.map escapeCharL).flatten

/-- A rendered diff line: the `span`'s optional CSS class and its escaped
text child (report.rs:55-59). -/
structure DiffLine where
  cls : Option String
  html : String
deriving DecidableEq

/-- The loop state of the per-change loop (report.rs:32-34): the two
counters (Rust `i32`, only ever incremented from 0, hence `Nat` here) and
the rendered lines in order. -/
structure DiffAcc where
  lines_added : Nat
  lines_removed : Nat
  lines : List DiffLine
deriving DecidableEq

/-- Rust `char::is_whitespace`: the Unicode White_Space property, i.e.
U+0009-U+000D, U+0020, U+0085, U+00A0, U+1680, U+2000-U+200A, U+2028,
U+2029, U+202F, U+205F and U+3000. -/
def rustIsWhitespace (ch : Char) : Bool :=
  let n := ch.toNat
  n = 0x20 || (0x9 ≤ n && n ≤ 0xD) || n = 0x85 || n = 0xA0 || n = 0x1680 ||
    (0x2000 ≤ n && n ≤ 0x200A) || n = 0x2028 || n = 0x2029 || n = 0x202F ||
    n = 0x205F || n = 0x3000

/-- Rust `change.as_str().unwrap().trim().is_empty()` of report.rs:37.
`str::trim` drops Unicode White_Space characters at both ends, so the
trimmed line is empty exactly when every character has the White_Space
property. -/
def isBlankLine (s : String) : Bool :=
  s.data.all rustIsWhitespace

/-- One iteration of the change loop (report.rs:36-60): inserts always
count and get `+`; deletes count and get `-` only when non-blank, a blank
delete gets `~` and no count; equal lines get a space and no count.  The
line is pushed as `escape_html(format!("{sign}{change}"))`. -/
def processChange (acc : DiffAcc) (c : Change) : DiffAcc :=
  let is_blank_line := isBlankLine c.text
  match c.tag with
  | ChangeTag.Insert =>
    ⟨acc.lines_added + 1, acc.lines_removed,
      acc.lines ++ [⟨some "diff-line diff-add",
        escapeHtml ("+" ++ changeDisplay c)⟩]⟩
  | ChangeTag.Delete =>
    if is_blank_line then
      ⟨acc.lines_added, acc.lines_removed,
        acc.lines ++ [⟨some "diff-line diff-blank-line",
          escapeHtml ("~" ++ changeDisplay c)⟩]⟩
    else
      ⟨acc.lines_added, acc.lines_removed + 1,
        acc.lines ++ [⟨some "diff-line diff-remove",
          escapeHtml ("-" ++ changeDisplay c)⟩]⟩
  | ChangeTag.Equal =>
    ⟨acc.lines_added, acc.lines_removed,
      acc.lines ++ [⟨none, escapeHtml (" " ++ changeDisplay c)⟩]⟩

/-- The whole change loop over a change sequence. -/
def diffFold (changes : List Change) : DiffAcc :=
  changes.foldl processChange ⟨0, 0, []⟩

/-- Split a string into lines that keep their terminating newline, as
`TextDiff::from_lines` tokenizes its inputs (a final segment without a
newline is still a line; the empty string has no lines). -/
def splitLinesAux (cs : List Char) (acc : List Char) : List String :=
  match cs with
  | [] => if acc.isEmpty then [] else [String.mk acc.reverse]
  | ch :: rest =>
    if ch = '\n' then String.mk (ch :: acc).reverse :: splitLinesAux rest []
    else splitLinesAux rest (ch :: acc)

/-- Line tokenization of a content string. -/
def splitLines (s : String) : List String :=
  splitLinesAux s.data []

/-- Length of a longest common subsequence of two line lists, with a fuel
argument for structural recursion; the fuel never runs out when it starts
at the summed length. -/
def lcsLenF : Nat → List String → List String → Nat
  | _, [], _ => 0
  | _, _ :: _, [] => 0
  | 0, _ :: _, _ :: _ => 0
  | fuel + 1, a :: as, b :: bs =>
    if a = b then lcsLenF fuel as bs + 1
    else max (lcsLenF fuel as (b :: bs)) (lcsLenF fuel (a :: as) bs)

/-- Length of a longest common subsequence of two line lists. -/
def lcsLen (xs ys : List String) : Nat :=
  lcsLenF (xs.length + ys.length) xs ys

/-- Fuelled worker for `diffLines`; the fuel never runs out when it starts
at the summed length. -/
def diffLinesF : Nat → List String → List String → List Change
  | _, [], [] => []
  | 0, _, _ => []
  | fuel + 1, [], b :: bs => ⟨ChangeTag.Insert, b⟩ :: diffLinesF fuel [] bs
  | fuel + 1, a :: as, [] => ⟨ChangeTag.Delete, a⟩ :: diffLinesF fuel as []
  | fuel + 1, a :: as, b :: bs =>
    if a = b then ⟨ChangeTag.Equal, a⟩ :: diffLinesF fuel as bs
    else if lcsLen (a :: as) bs ≤ lcsLen as (b :: bs) then
      ⟨ChangeTag.Delete, a⟩ :: diffLinesF fuel as (b :: bs)
    else
      ⟨ChangeTag.Insert, b⟩ :: diffLinesF fuel (a :: as) bs

/-- A minimal line diff in the style of `similar`'s Myers diff: equal heads
align, otherwise delete before insert, following a longest common
subsequence, covering every line of both sides. -/
def diffLines (xs ys : List String) : List Change :=
  diffLinesF (xs.length + ys.length) xs ys

/-- Rust `TextDiff::from_lines(&before, &after).iter_all_changes()`
(report.rs:30,36). -/
def textDiffFromLines (before after : String) : List Change :=
  diffLines (splitLines before) (splitLines after)

/-- Diff counters and rendered lines of one `Changed` pair
(report.rs:30-60). -/
def diffOf (before after : String) : DiffAcc :=
  diffFold (textDiffFromLines before after)

/-- Rust `struct ChangedFile` (report.rs:10-15). -/
structure ChangedFile where
  path : String
  lines_added : Nat
  lines_removed : Nat
  diff_lines : List DiffLine
deriving DecidableEq

/-- The state of `render_report`'s classification loop (report.rs:18-24):
the identical set (seeded from the comparison and possibly growing), the
added/changed/removed lists and the two running totals. -/
structure RenderAcc where
  identical : Finset String
  added : List String
  changed : List ChangedFile
  removed : List String
  total_lines_added : Nat
  total_lines_removed : Nat
deriving DecidableEq

/-- One iteration of `render_report`'s loop over the differences map
(report.rs:26-79).  A `Changed` entry whose diff counts are both zero is
reclassified into the identical set and contributes nothing else. -/
def processDifference (acc : RenderAcc) (e : String × Difference) : RenderAcc :=
  match e.2 with
  | Difference.Added => { acc with added := acc.added ++ [e.1] }
  | Difference.Changed before after =>
    let d := diffOf before after
    if d.lines_added = 0 ∧ d.lines_removed = 0 then
      { acc with identical := insert e.1 acc.identical }
    else
      { acc with
        total_lines_added := acc.total_lines_added + d.lines_added
        total_lines_removed := acc.total_lines_removed + d.lines_removed
        changed := acc.changed ++ [⟨e.1, d.lines_added, d.lines_removed, d.lines⟩] }
  | Difference.Removed => { acc with removed := acc.removed ++ [e.1] }

/-- The classification state reached by `render_report` after its loop over
`comparison.differences` (report.rs:17-79). -/
def renderState (c : Comparison) : RenderAcc :=
  c.differences.foldl processDifference ⟨c.identical, [], [], [], 0, 0⟩

/-- Rust `identical.len()` at report.rs:82. -/
def identicalCount (c : Comparison) : Nat :=
  (renderState c).identical.card

/-- Rust `total_files` at report.rs:83. -/
def totalCount (c : Comparison) : Nat :=
  identicalCount c + (renderState c).added.length
    + (renderState c).changed.length + (renderState c).removed.length

/-- Fuelled floor-log2 worker; the fuel bounds the recursion depth, one
unit per halving, so any fuel at least the bit length is enough. -/
def natLog2F : Nat → Nat → Nat
  | 0, _ => 0
  | fuel + 1, n => if n ≤ 1 then 0 else natLog2F fuel (n / 2) + 1

/-- Floor of log2.  A fuel of 128 covers every value the `f64` pipeline
below produces from `usize` counts (below 2^64) and 53-bit mantissas. -/
def natLog2 (n : Nat) : Nat := natLog2F 128 n

/-- IEEE round-to-nearest-even of the exact rational `a / b` to an
integer: compare twice the remainder with the divisor, ties to the even
quotient. -/
def rneDiv (a b : Nat) : Nat :=
  let q := a / b
  let r := a % b
  if 2 * r < b then q
  else if 2 * r > b then q + 1
  else if q % 2 = 0 then q else q + 1

/-- A nonnegative `f64` value, exactly: the mantissa times `2 ^ exponent`.
A nonzero value is kept normalized with the mantissa in `[2^52, 2^53)`;
zero has mantissa 0.  The pipeline of report.rs:84 stays far inside the
normal range, so neither subnormals nor infinities arise. -/
structure F64 where
  m : Nat
  e : Int
deriving DecidableEq

/-- Rust `usize as f64`: exact when the integer fits in 53 bits, otherwise
rounded to nearest, ties to even. -/
def f64ofNat (n : Nat) : F64 :=
  if n = 0 then ⟨0, 0⟩
  else
    let L := natLog2 n
    if L ≤ 52 then ⟨n * 2 ^ (52 - L), (L : Int) - 52⟩
    else
      let k := L - 52
      let m := rneDiv n (2 ^ k)
      if m = 2 ^ 53 then ⟨2 ^ 52, (k : Int) + 1⟩ else ⟨m, (k : Int)⟩

/-- IEEE `f64` division, correctly rounded to nearest, ties to even: the
mantissa ratio lies in `(1/2, 2)`, so the quotient's significand is the
round-to-nearest-even of the ratio scaled into `[2^52, 2^53)`. -/
def f64div (x y : F64) : F64 :=
  if x.m = 0 then ⟨0, 0⟩
  else if y.m ≤ x.m then
    let m := rneDiv (x.m * 2 ^ 52) y.m
    if m = 2 ^ 53 then ⟨2 ^ 52, x.e - y.e - 51⟩ else ⟨m, x.e - y.e - 52⟩
  else
    let m := rneDiv (x.m * 2 ^ 53) y.m
    if m = 2 ^ 53 then ⟨2 ^ 52, x.e - y.e - 52⟩ else ⟨m, x.e - y.e - 53⟩

/-- IEEE `f64` multiplication by the exact constant `100.0`, correctly
rounded to nearest, ties to even. -/
def f64mul100 (x : F64) : F64 :=
  if x.m = 0 then ⟨0, 0⟩
  else
    let p := x.m * 100
    let k := natLog2 p - 52
    let m := rneDiv p (2 ^ k)
    if m = 2 ^ 53 then ⟨2 ^ 52, x.e + (k : Int) + 1⟩ else ⟨m, x.e + (k : Int)⟩

/-- Rust `.round() as u32` on a nonnegative `f64`: `f64::round` is the
nearest integer, halves away from zero (exact, the results here are far
below 2^53), and the `as u32` cast saturates at `u32::MAX`. -/
def f64roundToU32 (x : F64) : Nat :=
  let n : Nat :=
    if 0 ≤ x.e then x.m * 2 ^ x.e.toNat
    else (x.m + 2 ^ ((-x.e).toNat - 1)) / 2 ^ (-x.e).toNat
  min n (2 ^ 32 - 1)

/-- Rust `percent_similar` (report.rs:81-85):
`((identical_files as f64 / total_files as f64) * 100.0).round() as u32`,
with each `f64` step correctly rounded as above.  For a zero total,
`0.0 / 0.0` is NaN and Rust's saturating `as u32` cast of NaN is 0. -/
def percentOfCounts (identical_files total_files : Nat) : Nat :=
  if total_files = 0 then 0
  else f64roundToU32 (f64mul100 (f64div (f64ofNat identical_files)
    (f64ofNat total_files)))

/-- The similarity percentage of a comparison (report.rs:81-85). -/
def percent_similar (c : Comparison) : Nat :=
  percentOfCounts (identicalCount c) (totalCount c)

/-- What one change contributes to `lines_added`. -/
def insDelta (c : Change) : Nat :=
  match c.tag with
  | ChangeTag.Insert => 1
  | _ => 0

/-- What one change contributes to `lines_removed`: nothing for a blank
delete, one for a substantive delete. -/
def remDelta (c : Change) : Nat :=
  match c.tag with
  | ChangeTag.Delete => if isBlankLine c.text then 0 else 1
  | _ => 0

/-- The rendered line of one change: CSS class and sign by tag, with a
blank delete getting the blank-removed style and `~`. -/
def renderedLine (c : Change) : DiffLine :=
  match c.tag with
  | ChangeTag.Insert =>
    ⟨some "diff-line diff-add", escapeHtml ("+" ++ changeDisplay c)⟩
  | ChangeTag.Delete =>
    if isBlankLine c.text then
      ⟨some "diff-line diff-blank-line", escapeHtml ("~" ++ changeDisplay c)⟩
    else
      ⟨some "diff-line diff-remove", escapeHtml ("-" ++ changeDisplay c)⟩
  | ChangeTag.Equal => ⟨none, escapeHtml (" " ++ changeDisplay c)⟩

lemma processChange_eq (acc : DiffAcc) (c : Change) :
    processChange acc c =
      ⟨acc.lines_added + insDelta c, acc.lines_removed + remDelta c,
        acc.lines ++ [renderedLine c]⟩ := by
  cases htag : c.tag with
  | Insert => simp [processChange, insDelta, remDelta, renderedLine, htag]
  | Delete =>
    by_cases hb : isBlankLine c.text = true
    · simp [processChange, insDelta, remDelta, renderedLine, htag, hb]
    · simp [processChange, insDelta, remDelta, renderedLine, htag, hb]
  | Equal => simp [processChange, insDelta, remDelta, renderedLine, htag]

lemma diffFold_eq_aux (l : List Change) (acc : DiffAcc) :
    l.foldl processChange acc =
      ⟨acc.lines_added + (l.map insDelta).sum,
        acc.lines_removed + (l.map remDelta).sum,
        acc.lines ++ l.map renderedLine⟩ := by
  induction l generalizing acc with
  | nil => cases acc; simp
  | cons c tl ih =>
    rw [List.foldl_cons, processChange_eq, ih]
    simp [Nat.add_assoc]

lemma diffFold_eq (l : List Change) :
    diffFold l =
      ⟨(l.map insDelta).sum, (l.map remDelta).sum, l.map renderedLine⟩ := by
  rw [diffFold, diffFold_eq_aux]
  simp

lemma sum_insDelta (l : List Change) :
    (l.map insDelta).sum = l.countP (fun c => c.tag == ChangeTag.Insert) := by
  induction l with
  | nil => simp
  | cons c tl ih =>
    rw [List.map_cons, List.sum_cons, List.countP_cons, ih]
    cases htag : c.tag <;> simp [insDelta, htag, Nat.add_comm]

lemma sum_remDelta (l : List Change) :
    (l.map remDelta).sum
      = l.countP (fun c => c.tag == ChangeTag.Delete && !(isBlankLine c.text)) := by
  induction l with
  | nil => simp
  | cons c tl ih =>
    rw [List.map_cons, List.sum_cons, List.countP_cons, ih]
    cases htag : c.tag with
    | Delete =>
      by_cases hb : isBlankLine c.text = true
      · simp [remDelta, htag, hb]
      · simp [remDelta, htag, hb, Nat.add_comm]
    | Insert => simp [remDelta, htag]
    | Equal => simp [remDelta, htag]

lemma escapeHtml_append (s t : String) :
    escapeHtml (s ++ t) = escapeHtml s ++ escapeHtml t := by
  have hdata : (s ++ t).data = s.data ++ t.data := String.data_append s t
  simp only [escapeHtml, hdata, List.map_append, List.flatten_append]
  rfl

lemma escapeHtml_singleton_of_plain (ch : Char) (h1 : ch ≠ '<')
    (h2 : ch ≠ '>') (h3 : ch ≠ '&') (h4 : ch ≠ '"') :
    escapeHtml (String.mk [ch]) = String.mk [ch] := by
  simp [escapeHtml, escapeCharL, h1, h2, h3, h4]

/-- The four sign characters of report.rs:39-53 pass through `escape_html`
unchanged, so escaping the sign-prefixed line equals prefixing the escaped
line. -/
lemma escapeHtml_sign_prepend (sign s : String)
    (h : sign = "+" ∨ sign = "-" ∨ sign = "~" ∨ sign = " ") :
    escapeHtml (sign ++ s) = sign ++ escapeHtml s := by
  rw [escapeHtml_append]
  rcases h with rfl | rfl | rfl | rfl <;> rfl

/-- C3: classification and counting of diff lines.  Over any change
sequence, `lines_added` counts exactly the Insert lines and
`lines_removed` exactly the non-blank Delete lines; each change renders to
one line, a blank Delete with the blank-removed class and `~`, a non-blank
Delete with `-`, an Insert with `+`, an Equal with a space and no class
and no effect on any count. -/
theorem diff_line_classification (changes : List Change) :
    (diffFold changes).lines_added
        = changes.countP (fun c => c.tag == ChangeTag.Insert) ∧
    (diffFold changes).lines_removed
        = changes.countP
            (fun c => c.tag == ChangeTag.Delete && !(isBlankLine c.text)) ∧
    (diffFold changes).lines = changes.map renderedLine ∧
    (∀ c : Change, c.tag = ChangeTag.Delete → isBlankLine c.text = true →
      renderedLine c = ⟨some "diff-line diff-blank-line",
        "~" ++ escapeHtml (changeDisplay c)⟩) ∧
    (∀ c : Change, c.tag = ChangeTag.Delete → isBlankLine c.text = false →
      renderedLine c = ⟨some "diff-line diff-remove",
        "-" ++ escapeHtml (changeDisplay c)⟩) ∧
    (∀ c : Change, c.tag = ChangeTag.Insert →
      renderedLine c = ⟨some "diff-line diff-add",
        "+" ++ escapeHtml (changeDisplay c)⟩) ∧
    (∀ c : Change, c.tag = ChangeTag.Equal →
      renderedLine c = ⟨none, " " ++ escapeHtml (changeDisplay c)⟩) := by
  refine ⟨?_, ?_, ?_, ?_, ?_, ?_, ?_⟩
  · rw [diffFold_eq, sum_insDelta]
  · rw [diffFold_eq, sum_remDelta]
  · rw [diffFold_eq]
  · intro c htag hb
    rw [renderedLine, htag]
    rw [if_pos hb]
    rw [escapeHtml_sign_prepend _ _ (Or.inr (Or.inr (Or.inl rfl)))]
  · intro c htag hb
    rw [renderedLine, htag]
    rw [if_neg (by rw [hb]; exact Bool.false_ne_true)]
    rw [escapeHtml_sign_prepend _ _ (Or.inr (Or.inl rfl))]
  · intro c htag
    rw [renderedLine, htag]
    rw [escapeHtml_sign_prepend _ _ (Or.inl rfl)]
  · intro c htag
    rw [renderedLine, htag]
    rw [escapeHtml_sign_prepend _ _ (Or.inr (Or.inr (Or.inr rfl)))]

/-- Example change sequence: one Equal, one Insert, one blank Delete, one
non-blank Delete. -/
def exChanges : List Change :=
  [⟨ChangeTag.Equal, "y\n"⟩, ⟨ChangeTag.Insert, "a\n"⟩,
    ⟨ChangeTag.Delete, "\n"⟩, ⟨ChangeTag.Delete, "x\n"⟩]

/-- Witness for C3: on `exChanges` only the Insert counts as added, only
the non-blank Delete counts as removed, and the blank Delete renders with
the blank style and `~`. -/
theorem diff_line_classification_witness :
    (diffFold exChanges).lines_added = 1 ∧
    (diffFold exChanges).lines_removed = 1 ∧
    renderedLine ⟨ChangeTag.Delete, "\n"⟩
      = ⟨some "diff-line diff-blank-line",
          "~" ++ escapeHtml (changeDisplay ⟨ChangeTag.Delete, "\n"⟩)⟩ := by
  obtain ⟨h1, h2, _, h4, _, _, _⟩ := diff_line_classification exChanges
  exact ⟨h1.trans (by decide), h2.trans (by decide), h4 _ rfl (by decide)⟩

/-- The directional sign of a diff line (report.rs:39-53). -/
def lineSign (c : Change) : String :=
  match c.tag with
  | ChangeTag.Insert => "+"
  | ChangeTag.Delete => if isBlankLine c.text then "~" else "-"
  | ChangeTag.Equal => " "

/-- The CSS class of a diff line (report.rs:39-53). -/
def lineClass (c : Change) : Option String :=
  match c.tag with
  | ChangeTag.Insert => some "diff-line diff-add"
  | ChangeTag.Delete =>
    if isBlankLine c.text then some "diff-line diff-blank-line"
    else some "diff-line diff-remove"
  | ChangeTag.Equal => none

/-- C8: the line pushed for each change is HTML-escaped: although the
code escapes `format!("{sign}{change}")` as a whole, no sign character is
HTML-special, so the rendered line equals the sign followed by the
HTML-escaped line text, for every change. -/
theorem diff_line_escaped (acc : DiffAcc) (c : Change) :
    (processChange acc c).lines
      = acc.lines ++ [⟨lineClass c, lineSign c ++ escapeHtml (changeDisplay c)⟩] := by
  rw [processChange_eq]
  have hr : renderedLine c
      = ⟨lineClass c, lineSign c ++ escapeHtml (changeDisplay c)⟩ := by
    cases htag : c.tag with
    | Insert =>
      rw [renderedLine, htag, lineSign, htag, lineClass, htag]
      rw [escapeHtml_sign_prepend _ _ (Or.inl rfl)]
    | Delete =>
      by_cases hb : isBlankLine c.text = true
      · rw [renderedLine, htag, lineSign, htag, lineClass, htag]
        rw [if_pos hb, if_pos hb, if_pos hb]
        rw [escapeHtml_sign_prepend _ _ (Or.inr (Or.inr (Or.inl rfl)))]
      · rw [renderedLine, htag, lineSign, htag, lineClass, htag]
        rw [if_neg hb, if_neg hb, if_neg hb]
        rw [escapeHtml_sign_prepend _ _ (Or.inr (Or.inl rfl))]
    | Equal =>
      rw [renderedLine, htag, lineSign, htag, lineClass, htag]
      rw [escapeHtml_sign_prepend _ _ (Or.inr (Or.inr (Or.inr rfl)))]
  rw [hr]

/-- The `ChangedFile` a difference entry contributes to the changed list,
if any (report.rs:26-79): only a `Changed` entry whose diff has a nonzero
count. -/
def changedEntryOf (e : String × Difference) : Option ChangedFile :=
  match e.2 with
  | Difference.Changed b a =>
    let d := diffOf b a
    if d.lines_added = 0 ∧ d.lines_removed = 0 then none
    else some ⟨e.1, d.lines_added, d.lines_removed, d.lines⟩
  | _ => none

/-- The path a difference entry reclassifies into the identical set, if
any: a `Changed` entry whose diff counts are both zero. -/
def reclassifiedOf (e : String × Difference) : Option String :=
  match e.2 with
  | Difference.Changed b a =>
    if (diffOf b a).lines_added = 0 ∧ (diffOf b a).lines_removed = 0 then
      some e.1
    else none
  | _ => none

/-- The path a difference entry pushes onto the added list, if any. -/
def addedPathOf (e : String × Difference) : Option String :=
  match e.2 with
  | Difference.Added => some e.1
  | _ => none

/-- The path a difference entry pushes onto the removed list, if any. -/
def removedPathOf (e : String × Difference) : Option String :=
  match e.2 with
  | Difference.Removed => some e.1
  | _ => none

lemma processDifference_changed (acc : RenderAcc) (e : String × Difference) :
    (processDifference acc e).changed
      = acc.changed ++ (changedEntryOf e).toList := by
  obtain ⟨p, d⟩ := e
  cases d with
  | Added => simp [processDifference, changedEntryOf]
  | Removed => simp [processDifference, changedEntryOf]
  | Changed b a =>
    by_cases h : (diffOf b a).lines_added = 0 ∧ (diffOf b a).lines_removed = 0
    · simp [processDifference, changedEntryOf, h]
    · simp [processDifference, changedEntryOf, h]

lemma processDifference_identical (acc : RenderAcc) (e : String × Difference) :
    (processDifference acc e).identical
      = acc.identical ∪ (reclassifiedOf e).toList.toFinset := by
  obtain ⟨p, d⟩ := e
  cases d with
  | Added => simp [processDifference, reclassifiedOf]
  | Removed => simp [processDifference, reclassifiedOf]
  | Changed b a =>
    by_cases h : (diffOf b a).lines_added = 0 ∧ (diffOf b a).lines_removed = 0
    · simp only [processDifference, reclassifiedOf, if_pos h]
      ext q
      simp [Finset.mem_insert, or_comm]
    · simp [processDifference, reclassifiedOf, h]

lemma processDifference_added (acc : RenderAcc) (e : String × Difference) :
    (processDifference acc e).added = acc.added ++ (addedPathOf e).toList := by
  obtain ⟨p, d⟩ := e
  cases d with
  | Added => simp [processDifference, addedPathOf]
  | Removed => simp [processDifference, addedPathOf]
  | Changed b a =>
    by_cases h : (diffOf b a).lines_added = 0 ∧ (diffOf b a).lines_removed = 0
    · simp [processDifference, addedPathOf, h]
    · simp [processDifference, addedPathOf, h]

lemma processDifference_removed (acc : RenderAcc) (e : String × Difference) :
    (processDifference acc e).removed
      = acc.removed ++ (removedPathOf e).toList := by
  obtain ⟨p, d⟩ := e
  cases d with
  | Added => simp [processDifference, removedPathOf]
  | Removed => simp [processDifference, removedPathOf]
  | Changed b a =>
    by_cases h : (diffOf b a).lines_added = 0 ∧ (diffOf b a).lines_removed = 0
    · simp [processDifference, removedPathOf, h]
    · simp [processDifference, removedPathOf, h]

lemma processDifference_totals (acc : RenderAcc) (e : String × Difference) :
    (processDifference acc e).total_lines_added
        = acc.total_lines_added
          + ((changedEntryOf e).toList.map (fun f => f.lines_added)).sum ∧
    (processDifference acc e).total_lines_removed
        = acc.total_lines_removed
          + ((changedEntryOf e).toList.map (fun f => f.lines_removed)).sum := by
  obtain ⟨p, d⟩ := e
  cases d with
  | Added => simp [processDifference, changedEntryOf]
  | Removed => simp [processDifference, changedEntryOf]
  | Changed b a =>
    by_cases h : (diffOf b a).lines_added = 0 ∧ (diffOf b a).lines_removed = 0
    · simp [processDifference, changedEntryOf, h]
    · simp [processDifference, changedEntryOf, h]

lemma filterMap_cons_toList {α β : Type _} (f : α → Option β) (a : α)
    (l : List α) :
    List.filterMap f (a :: l) = (f a).toList ++ List.filterMap f l := by
  cases h : f a <;> simp [List.filterMap_cons, h]

lemma foldl_processDifference_changed (l : List (String × Difference))
    (acc : RenderAcc) :
    (l.foldl processDifference acc).changed
      = acc.changed ++ l.filterMap changedEntryOf := by
  induction l generalizing acc with
  | nil => simp
  | cons e tl ih =>
    rw [List.foldl_cons, ih, processDifference_changed, filterMap_cons_toList,
      List.append_assoc]

lemma foldl_processDifference_identical (l : List (String × Difference))
    (acc : RenderAcc) :
    (l.foldl processDifference acc).identical
      = acc.identical ∪ (l.filterMap reclassifiedOf).toFinset := by
  induction l generalizing acc with
  | nil => simp
  | cons e tl ih =>
    rw [List.foldl_cons, ih, processDifference_identical, filterMap_cons_toList,
      List.toFinset_append, Finset.union_assoc]

lemma foldl_processDifference_added (l : List (String × Difference))
    (acc : RenderAcc) :
    (l.foldl processDifference acc).added
      = acc.added ++ l.filterMap addedPathOf := by
  induction l generalizing acc with
  | nil => simp
  | cons e tl ih =>
    rw [List.foldl_cons, ih, processDifference_added, filterMap_cons_toList,
      List.append_assoc]

lemma foldl_processDifference_removed (l : List (String × Difference))
    (acc : RenderAcc) :
    (l.foldl processDifference acc).removed
      = acc.removed ++ l.filterMap removedPathOf := by
  induction l generalizing acc with
  | nil => simp
  | cons e tl ih =>
    rw [List.foldl_cons, ih, processDifference_removed, filterMap_cons_toList,
      List.append_assoc]

lemma foldl_processDifference_totals (l : List (String × Difference))
    (acc : RenderAcc) :
    (l.foldl processDifference acc).total_lines_added
        = acc.total_lines_added
          + ((l.filterMap changedEntryOf).map (fun f => f.lines_added)).sum ∧
    (l.foldl processDifference acc).total_lines_removed
        = acc.total_lines_removed
          + ((l.filterMap changedEntryOf).map (fun f => f.lines_removed)).sum := by
  induction l generalizing acc with
  | nil => simp
  | cons e tl ih =>
    rw [List.foldl_cons]
    obtain ⟨ih1, ih2⟩ := ih (processDifference acc e)
    obtain ⟨h1, h2⟩ := processDifference_totals acc e
    constructor
    · rw [ih1, h1, filterMap_cons_toList, List.map_append, List.sum_append,
        Nat.add_assoc]
    · rw [ih2, h2, filterMap_cons_toList, List.map_append, List.sum_append,
        Nat.add_assoc]

lemma renderState_changed (c : Comparison) :
    (renderState c).changed = c.differences.filterMap changedEntryOf := by
  rw [renderState, foldl_processDifference_changed]
  rfl

lemma renderState_identical (c : Comparison) :
    (renderState c).identical
      = c.identical ∪ (c.differences.filterMap reclassifiedOf).toFinset := by
  rw [renderState, foldl_processDifference_identical]

lemma renderState_added (c : Comparison) :
    (renderState c).added = c.differences.filterMap addedPathOf := by
  rw [renderState, foldl_processDifference_added]
  rfl

lemma renderState_removed (c : Comparison) :
    (renderState c).removed = c.differences.filterMap removedPathOf := by
  rw [renderState, foldl_processDifference_removed]
  rfl

lemma renderState_totals (c : Comparison) :
    (renderState c).total_lines_added
        = (((renderState c).changed).map (fun f => f.lines_added)).sum ∧
    (renderState c).total_lines_removed
        = (((renderState c).changed).map (fun f => f.lines_removed)).sum := by
  rw [renderState_changed, renderState]
  obtain ⟨h1, h2⟩ := foldl_processDifference_totals c.differences
    ⟨c.identical, [], [], [], 0, 0⟩
  exact ⟨by rw [h1]; simp, by rw [h2]; simp⟩

lemma assoc_value_unique {β : Type _} (l : List (String × β)) (k : String)
    (x y : β) (hnd : (l.map Prod.fst).Nodup) (hx : (k, x) ∈ l)
    (hy : (k, y) ∈ l) : x = y := by
  induction l with
  | nil => cases hx
  | cons hd tl ih =>
    obtain ⟨a, b⟩ := hd
    simp only [List.map_cons, List.nodup_cons] at hnd
    rcases List.mem_cons.mp hx with hx | hx <;>
      rcases List.mem_cons.mp hy with hy | hy
    · obtain ⟨_, h2⟩ := Prod.ext_iff.mp hx
      obtain ⟨_, h4⟩ := Prod.ext_iff.mp hy
      simp only at h2 h4
      rw [h2, h4]
    · exfalso
      obtain ⟨h1, _⟩ := Prod.ext_iff.mp hx
      simp only at h1
      exact hnd.1 (h1 ▸ List.mem_map.mpr ⟨(k, y), hy, rfl⟩)
    · exfalso
      obtain ⟨h1, _⟩ := Prod.ext_iff.mp hy
      simp only at h1
      exact hnd.1 (h1 ▸ List.mem_map.mpr ⟨(k, x), hx, rfl⟩)
    · exact ih hnd.2 hx hy

lemma reclassified_helper (c : Comparison)
    (hnd : (c.differences.map Prod.fst).Nodup) (path b a : String)
    (hmem : (path, Difference.Changed b a) ∈ c.differences)
    (hla : (diffOf b a).lines_added = 0)
    (hlr : (diffOf b a).lines_removed = 0) :
    path ∈ (renderState c).identical ∧
      ∀ f ∈ (renderState c).changed, f.path ≠ path := by
  constructor
  · rw [renderState_identical]
    refine Finset.mem_union_right _ (List.mem_toFinset.mpr ?_)
    refine List.mem_filterMap.mpr ⟨(path, Difference.Changed b a), hmem, ?_⟩
    simp [reclassifiedOf, hla, hlr]
  · intro f hf heq
    rw [renderState_changed] at hf
    obtain ⟨⟨q, d⟩, hm, he⟩ := List.mem_filterMap.mp hf
    cases d with
    | Added => cases he
    | Removed => cases he
    | Changed b' a' =>
      by_cases h0 : (diffOf b' a').lines_added = 0
          ∧ (diffOf b' a').lines_removed = 0
      · simp [changedEntryOf, h0] at he
      · simp only [changedEntryOf, if_neg h0] at he
        have hq : q = f.path := by
          cases he
          rfl
        rw [heq] at hq
        rw [hq] at hm
        have := assoc_value_unique c.differences path
          (Difference.Changed b' a') (Difference.Changed b a) hnd hm hmem
        cases this
        exact h0 ⟨hla, hlr⟩

lemma totals_are_sums (c : Comparison) :
    (renderState c).total_lines_added
        = (((renderState c).changed).map (fun f => f.lines_added)).sum ∧
    (renderState c).total_lines_removed
        = (((renderState c).changed).map (fun f => f.lines_removed)).sum :=
  renderState_totals c

/-- C2: a `Changed` entry whose diff counts both vanish is reclassified
during rendering: its path joins the identical set, no entry of the changed
list carries it, and the totals are exactly the sums over the remaining
changed entries, so it contributes nothing to listing or totals. -/
theorem changed_zero_diff_reclassified (c : Comparison)
    (hnd : (c.differences.map Prod.fst).Nodup) (path b a : String)
    (hmem : (path, Difference.Changed b a) ∈ c.differences)
    (hla : (diffOf b a).lines_added = 0)
    (hlr : (diffOf b a).lines_removed = 0) :
    path ∈ (renderState c).identical ∧
    (∀ f ∈ (renderState c).changed, f.path ≠ path) ∧
    (renderState c).total_lines_added
        = (((renderState c).changed).map (fun f => f.lines_added)).sum ∧
    (renderState c).total_lines_removed
        = (((renderState c).changed).map (fun f => f.lines_removed)).sum :=
  ⟨(reclassified_helper c hnd path b a hmem hla hlr).1,
    (reclassified_helper c hnd path b a hmem hla hlr).2,
    (totals_are_sums c).1, (totals_are_sums c).2⟩

/-- Scenario 4 of the spec: the only difference is a deleted trailing blank
line. -/
def exC2 : Comparison :=
  ⟨∅, [("/b.html", Difference.Changed "text\n\n" "text\n")]⟩

/-- Witness for C2 at `exC2`. -/
theorem changed_zero_diff_reclassified_witness :
    "/b.html" ∈ (renderState exC2).identical ∧
    (renderState exC2).changed = [] :=
  ⟨(changed_zero_diff_reclassified exC2 (by decide) "/b.html" "text\n\n"
      "text\n" (by decide) (by decide) (by decide)).1,
    by decide⟩

/-- A comparison whose only Changed pair differs by one inserted blank
line. -/
def exC6 : Comparison :=
  ⟨∅, [("/b.html", Difference.Changed "a\n" "a\n\n")]⟩

/-- Counterexample to C6: the diff of `"a\n"` against `"a\n\n"` consists of
an Equal line and a blank-line Insert only, yet the path is NOT moved to
the identical set — it stays in the changed list, because an Insert always
increments `lines_added`, blank or not (report.rs:40-43). -/
theorem blank_insertion_not_reclassified :
    (∀ ch ∈ textDiffFromLines "a\n" "a\n\n",
      ch.tag = ChangeTag.Equal ∨
        (isBlankLine ch.text = true ∧
          (ch.tag = ChangeTag.Insert ∨ ch.tag = ChangeTag.Delete))) ∧
    "/b.html" ∉ (renderState exC6).identical ∧
    ((renderState exC6).changed.map (fun f => f.path)) = ["/b.html"] := by
  decide

/-- C6 amended: a `Changed` path whose line diff contains only Equal
lines and blank-line *deletions* is moved out of the changed set into the
identical set.  (Blank-line insertions do not qualify: every Insert
increments `lines_added` and keeps the path in the changed set, as the
counterexample shows.) -/
theorem blank_deletions_only_reclassified (c : Comparison)
    (hnd : (c.differences.map Prod.fst).Nodup) (path b a : String)
    (hmem : (path, Difference.Changed b a) ∈ c.differences)
    (hall : ∀ ch ∈ textDiffFromLines b a,
      ch.tag = ChangeTag.Equal ∨
        (ch.tag = ChangeTag.Delete ∧ isBlankLine ch.text = true)) :
    path ∈ (renderState c).identical ∧
      ∀ f ∈ (renderState c).changed, f.path ≠ path := by
  have hla : (diffOf b a).lines_added = 0 := by
    rw [diffOf, diffFold_eq]
    show (List.map insDelta (textDiffFromLines b a)).sum = 0
    apply List.sum_eq_zero
    intro x hx
    obtain ⟨ch, hch, rfl⟩ := List.mem_map.mp hx
    rcases hall ch hch with h | ⟨hd, _⟩
    · simp [insDelta, h]
    · simp [insDelta, hd]
  have hlr : (diffOf b a).lines_removed = 0 := by
    rw [diffOf, diffFold_eq]
    show (List.map remDelta (textDiffFromLines b a)).sum = 0
    apply List.sum_eq_zero
    intro x hx
    obtain ⟨ch, hch, rfl⟩ := List.mem_map.mp hx
    rcases hall ch hch with h | ⟨hd, hb⟩
    · simp [remDelta, h]
    · simp [remDelta, hd, hb]
  exact reclassified_helper c hnd path b a hmem hla hlr

/-- A comparison whose only Changed pair differs by one deleted blank
line in the middle. -/
def exC6w : Comparison :=
  ⟨∅, [("/d.html", Difference.Changed "x\n\ny\n" "x\ny\n")]⟩

/-- Witness for the amended C6 at `exC6w`. -/
theorem blank_deletions_only_reclassified_witness :
    "/d.html" ∈ (renderState exC6w).identical ∧
    (renderState exC6w).changed = [] :=
  ⟨(blank_deletions_only_reclassified exC6w (by decide) "/d.html"
      "x\n\ny\n" "x\ny\n" (by decide) (by decide)).1,
    by decide⟩

/-- C4: for two empty snapshots the renderer's `percent_similar` still
evaluates, with no division-by-zero failure: the modelled `f64` expression
`0.0 / 0.0` is NaN and Rust's saturating `as u32` cast takes NaN to 0, a
deterministic, language-defined value. -/
theorem percent_similar_empty_snapshots :
    totalCount (compare_sites [] []) = 0 ∧
    percent_similar (compare_sites [] []) = 0 := by
  decide

lemma natLog2F_le (fuel : Nat) : ∀ n : Nat, 1 ≤ n → 2 ^ natLog2F fuel n ≤ n := by
  induction fuel with
  | zero => intro n hn; simpa [natLog2F] using hn
  | succ fuel ih =>
    intro n hn
    rw [natLog2F]
    by_cases h1 : n ≤ 1
    · rw [if_pos h1]
      simpa using hn
    · rw [if_neg h1, pow_succ]
      have hhalf : 1 ≤ n / 2 := by omega
      have := ih (n / 2) hhalf
      calc 2 ^ natLog2F fuel (n / 2) * 2 ≤ n / 2 * 2 :=
            Nat.mul_le_mul_right 2 this
        _ ≤ n := by omega

lemma natLog2_le (n : Nat) (hn : 1 ≤ n) : 2 ^ natLog2 n ≤ n :=
  natLog2F_le 128 n hn

lemma le_rneDiv (a b : Nat) : a / b ≤ rneDiv a b := by
  rw [rneDiv]
  split
  · exact le_refl _
  · split
    · exact Nat.le_succ _
    · split
      · exact le_refl _
      · exact Nat.le_succ _

lemma f64ofNat_m_pos (n : Nat) (hn : n ≠ 0) : 0 < (f64ofNat n).m := by
  rw [f64ofNat, if_neg hn]
  by_cases hL : natLog2 n ≤ 52
  · rw [if_pos hL]
    exact Nat.mul_pos (Nat.pos_of_ne_zero hn) (Nat.pos_pow_of_pos _ (by omega))
  · rw [if_neg hL]
    have hk : natLog2 n - 52 ≤ natLog2 n := Nat.sub_le _ _
    have hpow : 2 ^ natLog2 n / 2 ^ (natLog2 n - 52) = 2 ^ 52 := by
      rw [Nat.pow_div hk (by omega)]
      congr 1
      omega
    have hlow : 2 ^ 52 ≤ n / 2 ^ (natLog2 n - 52) := by
      rw [← hpow]
      exact Nat.div_le_div_right (natLog2_le n (Nat.one_le_iff_ne_zero.mpr hn))
    have hmq : 0 < rneDiv n (2 ^ (natLog2 n - 52)) :=
      lt_of_lt_of_le (lt_of_lt_of_le (Nat.pos_pow_of_pos 52 (by omega)) hlow)
        (le_rneDiv _ _)
    by_cases hren : rneDiv n (2 ^ (natLog2 n - 52)) = 2 ^ 53
    · rw [if_pos hren]
      exact Nat.pos_pow_of_pos 52 (by omega)
    · rw [if_neg hren]
      exact hmq

lemma f64div_self (x : F64) (hm : x.m ≠ 0) :
    f64div x x = ⟨2 ^ 52, -52⟩ := by
  rw [f64div, if_neg hm, if_pos (le_refl x.m)]
  have h1 : rneDiv (x.m * 2 ^ 52) x.m = 2 ^ 52 := by
    rw [rneDiv]
    have hmod : x.m * 2 ^ 52 % x.m = 0 := Nat.mul_mod_right x.m _
    have hdiv : x.m * 2 ^ 52 / x.m = 2 ^ 52 :=
      Nat.mul_div_cancel_left _ (Nat.pos_of_ne_zero hm)
    simp only [hmod, hdiv, Nat.mul_zero]
    rw [if_pos (Nat.pos_of_ne_zero hm)]
  rw [h1, if_neg (by norm_num)]
  congr 1
  omega

/-- A comparison with 23 identical files and 17 added ones: 23 of 40. -/
def exC5cex : Comparison :=
  ⟨(["/i01.html", "/i02.html", "/i03.html", "/i04.html", "/i05.html", "/i06.html", "/i07.html", "/i08.html", "/i09.html", "/i10.html", "/i11.html", "/i12.html", "/i13.html", "/i14.html", "/i15.html", "/i16.html", "/i17.html", "/i18.html", "/i19.html", "/i20.html", "/i21.html", "/i22.html", "/i23.html"] : List String).toFinset,
    [("/a01.html", Difference.Added),
     ("/a02.html", Difference.Added),
     ("/a03.html", Difference.Added),
     ("/a04.html", Difference.Added),
     ("/a05.html", Difference.Added),
     ("/a06.html", Difference.Added),
     ("/a07.html", Difference.Added),
     ("/a08.html", Difference.Added),
     ("/a09.html", Difference.Added),
     ("/a10.html", Difference.Added),
     ("/a11.html", Difference.Added),
     ("/a12.html", Difference.Added),
     ("/a13.html", Difference.Added),
     ("/a14.html", Difference.Added),
     ("/a15.html", Difference.Added),
     ("/a16.html", Difference.Added),
     ("/a17.html", Difference.Added)]⟩

/-- Counterexample to C5: at 23 identical of 40 total files the program's
f64 pipeline computes `(23.0 / 40.0) * 100.0 = 57.49999999999999` (the
correctly rounded double quotient falls just below 0.575), so
`percent_similar` is 57, while the claimed exact formula rounds 57.5 up to
58. -/
theorem percent_similar_not_exact_round :
    identicalCount exC5cex = 23 ∧ totalCount exC5cex = 40 ∧
    percent_similar exC5cex = 57 ∧
    round ((23 : ℚ) / (40 : ℚ) * 100) = 58 := by
  refine ⟨by decide, by decide, by decide, ?_⟩
  have h1 : ((23 : ℚ) / 40 * 100) = 115 / 2 := by norm_num
  have h2 : ((115 : ℚ) / 2 + 1 / 2) = 58 := by norm_num
  rw [h1, round_eq, h2]
  norm_num

/-- C5 amended: with at least one file, `percent_similar` is the `f64`
evaluation of `round(identical / total * 100)` — correctly rounded double
division and multiplication, then round-half-away-from-zero and the
saturating `u32` cast — which can land one below the exact rational
rounding when double rounding crosses a half-integer (23 of 40 gives 57,
not 58); it is still 0 when no file is identical and 100 when all are. -/
theorem percent_similar_f64 (c : Comparison) (h : totalCount c ≠ 0) :
    percent_similar c
        = f64roundToU32 (f64mul100 (f64div (f64ofNat (identicalCount c))
            (f64ofNat (totalCount c)))) ∧
    (identicalCount c = 0 → percent_similar c = 0) ∧
    (identicalCount c = totalCount c → percent_similar c = 100) := by
  refine ⟨?_, ?_, ?_⟩
  · rw [percent_similar, percentOfCounts, if_neg h]
  · intro hi
    rw [percent_similar, hi, percentOfCounts]
    split
    · rfl
    · rfl
  · intro hi
    rw [percent_similar, hi, percentOfCounts, if_neg h,
      f64div_self _ (f64ofNat_m_pos (totalCount c) h).ne']
    decide

/-- Scenario 5 of the spec: one file, only added. -/
def exC5 : Comparison := compare_sites [] [("/new.html", "hi")]

/-- Scenario 1 of the spec: one file, identical. -/
def exC5b : Comparison := compare_sites [("/a.html", "hi")] [("/a.html", "hi")]

/-- Witness for the amended C5: zero identical of one total gives 0, one
identical of one total gives 100. -/
theorem percent_similar_f64_witness :
    totalCount exC5 ≠ 0 ∧ percent_similar exC5 = 0 ∧
    percent_similar exC5b = 100 :=
  ⟨by decide, (percent_similar_f64 exC5 (by decide)).2.1 (by decide),
    (percent_similar_f64 exC5b (by decide)).2.2 (by decide)⟩

/-- Rust `slug::slugify`, the anchor slug function (report.rs:170,183): ASCII
letters are lowercased, digits kept, and every other character run becomes
a single `-`, with no leading or trailing dash.  (The slug crate first
transliterates non-ASCII characters via deunicode; that out-of-repo table
is modelled by the non-alphanumeric branch, which the verified anchors
never depend on.) -/
def slugifyAux : List Char → Bool → List Char
  | [], _ => []
  | ch :: rest, prevDash =>
    if ('a' ≤ ch ∧ ch ≤ 'z') ∨ ('0' ≤ ch ∧ ch ≤ '9') then
      ch :: slugifyAux rest false
    else if 'A' ≤ ch ∧ ch ≤ 'Z' then
      ch.toLower :: slugifyAux rest false
    else if prevDash then slugifyAux rest true
    else '-' :: slugifyAux rest true

/-- Application of `slugify` to a path: run the character loop, then drop a trailing
dash. -/
def slugify (s : String) : String :=
  String.mk (
    let raw := slugifyAux s.data true
    match raw.getLast? with
    | some '-' => raw.dropLast
    | _ => raw)

/-- The `href` of each changed-files listing entry, in listing order
(report.rs:170): `#diff-` followed by the slug of the file's path. -/
def changedListingHrefs (c : Comparison) : List String :=
  (renderState c).changed.map (fun f => "#diff-" ++ slugify f.path)

/-- The `id` of each diff block, in diff-section order (report.rs:183):
`diff-` followed by the slug of the file's path. -/
def diffBlockIds (c : Comparison) : List String :=
  (renderState c).changed.map (fun f => "diff-" ++ slugify f.path)

/-- C9: the listing links target their own diff blocks.  Both sections
iterate the same changed list in the same order; entrywise the listing
`href` is `#` followed by the diff block's `id`, the `id` is the
deterministic slug of the entry's path, and equal paths give equal
slugs. -/
theorem anchor_links_match (c : Comparison) :
    changedListingHrefs c = (diffBlockIds c).map (fun i => "#" ++ i) ∧
    diffBlockIds c
        = (renderState c).changed.map (fun f => "diff-" ++ slugify f.path) ∧
    (∀ p q : String, p = q → slugify p = slugify q) := by
  refine ⟨?_, rfl, fun p q hpq => by rw [hpq]⟩
  rw [changedListingHrefs, diffBlockIds, List.map_map]
  congr 1

/-- A comparison with one surviving changed file whose path needs
slugging. -/
def exC9 : Comparison :=
  ⟨∅, [("/a b.html", Difference.Changed "x\n" "y\n")]⟩

/-- Witness for C9 at `exC9`: the link list matches the id list, and the
slug evaluates as expected. -/
theorem anchor_links_match_witness :
    changedListingHrefs exC9 = (diffBlockIds exC9).map (fun i => "#" ++ i) ∧
    slugify "/a b.html" = slugify "/a b.html" ∧
    changedListingHrefs exC9 = ["#diff-a-b-html"] :=
  ⟨(anchor_links_match exC9).1, (anchor_links_match exC9).2.2 _ _ rfl,
    by decide⟩

/-- Rust `similar::Change::as_str()` behind the unwrap at report.rs:37: a diff
built by `TextDiff::from_lines` over two strings slices those strings, so
its change values are always str-backed and `as_str` is always `Some`. -/
def changeAsStr (c : Change) : Option String := some c.text

/-- The `fmt::Write` unwrap inside `escape_html` (report.rs:222): writing
the escaped text into an in-memory `String` cannot fail. -/
def escapeHtmlChecked (s : String) : Option String := some (escapeHtml s)

/-- The change loop body with its two fallible operations threaded through
`Option` instead of unwrapped (report.rs:36-60). -/
def processChangeOpt (acc : DiffAcc) (c : Change) : Option DiffAcc :=
  (changeAsStr c).bind fun t =>
    let is_blank_line := isBlankLine t
    match c.tag with
    | ChangeTag.Insert =>
      (escapeHtmlChecked ("+" ++ changeDisplay c)).bind fun h =>
        some ⟨acc.lines_added + 1, acc.lines_removed,
          acc.lines ++ [⟨some "diff-line diff-add", h⟩]⟩
    | ChangeTag.Delete =>
      if is_blank_line then
        (escapeHtmlChecked ("~" ++ changeDisplay c)).bind fun h =>
          some ⟨acc.lines_added, acc.lines_removed,
            acc.lines ++ [⟨some "diff-line diff-blank-line", h⟩]⟩
      else
        (escapeHtmlChecked ("-" ++ changeDisplay c)).bind fun h =>
          some ⟨acc.lines_added, acc.lines_removed + 1,
            acc.lines ++ [⟨some "diff-line diff-remove", h⟩]⟩
    | ChangeTag.Equal =>
      (escapeHtmlChecked (" " ++ changeDisplay c)).bind fun h =>
        some ⟨acc.lines_added, acc.lines_removed,
          acc.lines ++ [⟨none, h⟩]⟩

/-- The per-difference loop body with the fallible change loop threaded
through `Option` (report.rs:26-79). -/
def processDifferenceOpt (acc : RenderAcc) (e : String × Difference) :
    Option RenderAcc :=
  match e.2 with
  | Difference.Added => some { acc with added := acc.added ++ [e.1] }
  | Difference.Changed before after =>
    ((textDiffFromLines before after).foldlM processChangeOpt
        ⟨0, 0, []⟩).bind fun d =>
      if d.lines_added = 0 ∧ d.lines_removed = 0 then
        some { acc with identical := insert e.1 acc.identical }
      else
        some { acc with
          total_lines_added := acc.total_lines_added + d.lines_added
          total_lines_removed := acc.total_lines_removed + d.lines_removed
          changed := acc.changed
            ++ [⟨e.1, d.lines_added, d.lines_removed, d.lines⟩] }
  | Difference.Removed => some { acc with removed := acc.removed ++ [e.1] }

/-- Rust `render_report` and its classification loop, with every unwrap site modelled
as a fallible `Option` step. -/
def renderStateChecked (c : Comparison) : Option RenderAcc :=
  c.differences.foldlM processDifferenceOpt ⟨c.identical, [], [], [], 0, 0⟩

lemma processChangeOpt_eq (acc : DiffAcc) (c : Change) :
    processChangeOpt acc c = some (processChange acc c) := by
  cases htag : c.tag with
  | Insert =>
    simp [processChangeOpt, processChange, changeAsStr, escapeHtmlChecked, htag]
  | Delete =>
    by_cases hb : isBlankLine c.text = true
    · simp [processChangeOpt, processChange, changeAsStr, escapeHtmlChecked,
        htag, hb]
    · simp [processChangeOpt, processChange, changeAsStr, escapeHtmlChecked,
        htag, hb]
  | Equal =>
    simp [processChangeOpt, processChange, changeAsStr, escapeHtmlChecked, htag]

lemma foldlM_processChangeOpt (l : List Change) (acc : DiffAcc) :
    l.foldlM processChangeOpt acc = some (l.foldl processChange acc) := by
  induction l generalizing acc with
  | nil => rfl
  | cons c tl ih =>
    rw [List.foldlM_cons, processChangeOpt_eq]
    show tl.foldlM processChangeOpt (processChange acc c) = _
    rw [ih, List.foldl_cons]

lemma processDifferenceOpt_eq (acc : RenderAcc) (e : String × Difference) :
    processDifferenceOpt acc e = some (processDifference acc e) := by
  obtain ⟨p, d⟩ := e
  cases d with
  | Added => rfl
  | Removed => rfl
  | Changed b a =>
    simp only [processDifferenceOpt, foldlM_processChangeOpt, Option.some_bind]
    rw [show (textDiffFromLines b a).foldl processChange (⟨0, 0, []⟩ : DiffAcc)
        = diffOf b a from rfl]
    by_cases h : (diffOf b a).lines_added = 0 ∧ (diffOf b a).lines_removed = 0
    · rw [if_pos h]
      simp only [processDifference]
      rw [if_pos h]
    · rw [if_neg h]
      simp only [processDifference]
      rw [if_neg h]

/-- C10: the classification loop of `render_report` is total over every
comparison: with the `as_str` unwrap and the `escape_html` write modelled
as fallible steps, the loop still always succeeds and agrees with the
total model, so neither unwrap can panic. -/
theorem render_loop_total (c : Comparison) :
    renderStateChecked c = some (renderState c) := by
  rw [renderStateChecked, renderState]
  generalize (⟨c.identical, [], [], [], 0, 0⟩ : RenderAcc) = acc
  induction c.differences generalizing acc with
  | nil => rfl
  | cons e tl ih =>
    rw [List.foldlM_cons, processDifferenceOpt_eq]
    show tl.foldlM processDifferenceOpt (processDifference acc e) = _
    rw [ih, List.foldl_cons]
